import Mathlib

/-!
Verification of the fancy_clap argument locator.

The development shallowly embeds the repository's location engine:

* `src/parse.rs` — `ArgLocator::get_locations` / `get_location`, the
  single-pass token walker (the side of the file that matches the
  `Vec<Option<ArgLocation>>` signature; the other side of the merge
  conflict is the abandoned single-target revision).  Tokens are modelled
  as lists of characters standing for bytes; `clap_lex` token queries
  (`to_long`, `to_short`, `next_flag`, `next_value_os`, `peek`) are
  embedded directly.
* `src/alias.rs` / the `from_command_factory` alias builder in
  `src/parse.rs` — the alias-to-argument index.  The lookup closure's
  `NonEmpty::from_vec(aliases).expect(..)` panic on a schema that
  registers no alias at all is modelled by `lookupAliasE` and the
  checked scan `scanTokensE` / `get_locations_checked`; the pure
  `lookupAlias` and `scanTokens` are its behaviour on a schema with a
  non-empty alias list, and `scanTokensE_ok` proves the two agree
  there.
* `src/lex.rs` — the older `ArgLocator::get_location` revision, embedded
  with explicit fuel because its inner peek loop need not terminate.

Arguments (`clap::Arg`) are modelled by the record `ArgSpec`, carrying the
fields the locator reads: id, canonical long/short plus declared aliases,
`get_num_args` (a min/max value range), `is_allow_hyphen_values_set`, and
`get_possible_values` (used by the lex.rs revision for flag detection).
-/

/-- Byte span of one part of an argument occurrence (src/parse.rs `ArgPart`). -/
structure ArgPart where
  offset : Nat
  length : Nat
deriving DecidableEq, Repr, Inhabited

/-- How an argument appears in the Argv string (src/parse.rs `ArgLocation`). -/
inductive ArgLocation where
  | Discrete (declaration : ArgPart) (name : ArgPart)
  | Stuck (declaration : ArgPart) (name : ArgPart) (content : ArgPart)
  | Complete (declaration : ArgPart) (name : ArgPart)
      (delimiter : ArgPart) (content : ArgPart)
deriving DecidableEq, Repr

def DELIMITER_LENGTH : Nat := 1

def SHORT_LENGTH : Nat := 1

def LONG_DECLARATION_LENGTH : Nat := 2

def SHORT_DECLARATION_LENGTH : Nat := 1

/-- src/parse.rs `ArgLocation::new_complete`. -/
def ArgLocation.new_complete (declaration name : ArgPart)
    (content_length : Nat) : ArgLocation :=
  let delimiter : ArgPart :=
    { offset := name.offset + name.length, length := DELIMITER_LENGTH }
  let content : ArgPart :=
    { offset := delimiter.offset + delimiter.length, length := content_length }
  .Complete declaration name delimiter content

/-- A token of the command line; each character stands for one byte. -/
abbrev Token := List Char

/-- Long or short alias of an argument (src/parse.rs and src/alias.rs
`ArgAlias`); the hyphens are not included. -/
inductive ArgAlias where
  | Long (text : List Char)
  | Short (c : Char)
deriving DecidableEq, Repr

/-- The slice of `clap::Arg` metadata the locator reads.  `long` is the
canonical long name (`get_long`), `longAliases` is `get_all_aliases`,
`short` is `get_short`, `shortAliases` is `get_all_short_aliases`,
`numArgs` is `get_num_args` as an inclusive min/max range,
`allowHyphen` is `is_allow_hyphen_values_set` and `possibleValues` is
`get_possible_values`. -/
structure ArgSpec where
  id : String
  long : Option (List Char)
  longAliases : List (List Char)
  short : Option Char
  shortAliases : List Char
  numArgs : Option (Nat × Nat)
  allowHyphen : Bool
  possibleValues : List String
deriving DecidableEq, Repr

/-- clap `ValueRange::takes_values`: the maximum of the range is nonzero. -/
def takes_values (r : Nat × Nat) : Bool := r.2 != 0

/-- src/parse.rs `ArgLocator::is_arg_discrete`:
`!arg.get_num_args().unwrap_or_else(|| 1.into()).takes_values()`. -/
def is_arg_discrete (a : ArgSpec) : Bool :=
  !(takes_values (a.numArgs.getD (1, 1)))

/-- Splits a character list at the first `=` (the `i = find('=')` step of
clap_lex `ParsedArg::to_long`); returns the flag text and, when an `=`
was present, the remainder after it. -/
def splitFirstEq : List Char → List Char × Option (List Char)
  | [] => ([], none)
  | c :: cs =>
    if c = '=' then ([], some cs)
    else
      let r := splitFirstEq cs
      (c :: r.1, r.2)

/-- clap_lex `ParsedArg::to_long`: tokens of the form `--name` or
`--name=value` (a `--` prefix stripped from a non-empty remainder); the
bare escape `--` is not a long. -/
def toLong : Token → Option (List Char × Option (List Char))
  | c1 :: c2 :: rest =>
    if c1 = '-' ∧ c2 = '-' then
      if rest.isEmpty then none else some (splitFirstEq rest)
    else none
  | _ => none

/-- clap_lex `ParsedArg::to_short`: tokens starting with a single `-`
followed by the cluster characters; bare `-` is stdio, not a short. -/
def toShort : Token → Option (List Char)
  | c1 :: rest =>
    if c1 = '-' then
      if rest.isEmpty then none
      else if rest.head? = some '-' then none
      else some rest
    else none
  | _ => none

/-- A token the scanner treats as a plain value: neither long- nor
short-shaped (the `peek.to_long().is_none() && peek.to_short().is_none()`
condition of src/parse.rs). -/
def isValueTok (t : Token) : Bool := (toLong t).isNone && (toShort t).isNone

/-- The alias entries one argument contributes to the index, in the order
src/parse.rs `from_command_factory` (and src/alias.rs `get_arg`) pushes
them: canonical long then long aliases, canonical short then short
aliases. -/
def argAliasList (a : ArgSpec) : List ArgAlias :=
  (a.long.toList ++ a.longAliases).map ArgAlias.Long
    ++ (a.short.toList ++ a.shortAliases).map ArgAlias.Short

/-- The alias index built by src/parse.rs `from_command_factory`: every
alias of every argument paired with (the index of) its shared argument.
The source sorts the pairs and binary-searches; with the schema's aliases
pairwise distinct this is extensionally the association-list lookup
below. -/
def buildAliasPairsFrom (i : Nat) : List ArgSpec → List (ArgAlias × Nat)
  | [] => []
  | a :: rest => (argAliasList a).map (fun al => (al, i))
      ++ buildAliasPairsFrom (i + 1) rest

def buildAliasPairs (args : List ArgSpec) : List (ArgAlias × Nat) :=
  buildAliasPairsFrom 0 args

/-- Index lookup: the argument index registered for an alias. -/
def lookupAliasIdx (args : List ArgSpec) (al : ArgAlias) : Option Nat :=
  ((buildAliasPairs args).find? (fun p => decide (p.1 = al))).map (fun p => p.2)

/-- src/parse.rs `get_arg_by_alias` as produced by `from_command_factory`,
after its one-time cache has been built successfully: `None` when the
alias is not registered.  The closure's
`NonEmpty::from_vec(aliases).expect(..)` step, which panics when the
schema registers no alias at all, is modelled separately by
`lookupAliasE` and the checked scan `scanTokensE`; this pure lookup is
the closure's behaviour only on a schema with a non-empty alias list. -/
def lookupAlias (args : List ArgSpec) (al : ArgAlias) : Option ArgSpec :=
  (lookupAliasIdx args al).bind (fun i => args.get? i)

/-- `targets.iter().position(|target| target == found.get_id())`. -/
def position (id : String) : List String → Option Nat
  | [] => none
  | t :: ts => if t == id then some 0 else (position id ts).map (fun n => n + 1)

/-- src/parse.rs `peek_or_discrete`: peek at the next unconsumed token; a
plain-value-shaped peek (or any peek when the argument allows hyphen
values) makes a `Complete` whose content length is the peeked token's
length, otherwise the location is `Discrete`.  The peeked token is not
consumed. -/
def peek_or_discrete (arg : ArgSpec) (rest : List Token)
    (declaration name : ArgPart) : ArgLocation :=
  match rest with
  | peek :: _ =>
    if arg.allowHyphen || ((toLong peek).isNone && (toShort peek).isNone) then
      ArgLocation.new_complete declaration name peek.length
    else
      .Discrete declaration name
  | [] => .Discrete declaration name

/-- Running state of the scan: the byte cursor (the mutable `name.offset`
of the source), the per-target results and the count of resolved
targets. -/
structure ScanState where
  offset : Nat
  results : List (Option ArgLocation)
  resolved : Nat
deriving DecidableEq, Repr

/-- The `'shorts` inner loop of src/parse.rs `get_locations`: walk the
cluster characters; unregistered shorts are skipped (`continue 'shorts`
without advancing), flag arguments advance the cursor one byte (or
resolve a `Discrete` when targeted, without advancing), and the first
value-taking argument ends the cluster: its `next_value_os` remainder is
a stuck or `=`-delimited value, or, with an empty remainder,
`peek_or_discrete` decides. -/
def scanShorts (args : List ArgSpec) (targets : List String)
    (rest : List Token) (declaration : ArgPart) :
    List Char → ScanState → ScanState
  | [], s => s
  | c :: cs, s =>
    match lookupAlias args (.Short c) with
    | none => scanShorts args targets rest declaration cs s
    | some found =>
      if is_arg_discrete found then
        match position found.id targets with
        | none =>
          scanShorts args targets rest declaration cs
            { s with offset := s.offset + SHORT_LENGTH }
        | some pos =>
          scanShorts args targets rest declaration cs
            { s with
              results := s.results.set pos
                (some (.Discrete declaration { offset := s.offset, length := 1 })),
              resolved := s.resolved + 1 }
      else
        -- `shorts.next_value_os()` consumes the remainder of the cluster.
        let remain : Option (List Char) := if cs.isEmpty then none else some cs
        match position found.id targets with
        | none =>
          { s with offset := s.offset + SHORT_LENGTH
              + (remain.getD []).length + DELIMITER_LENGTH }
        | some pos =>
          match remain with
          | some stuck =>
            if stuck.head? = some '=' then
              { s with
                results := s.results.set pos
                  (some (ArgLocation.new_complete declaration
                    { offset := s.offset, length := SHORT_LENGTH }
                    (stuck.length - 1))),
                resolved := s.resolved + 1 }
            else
              { s with
                results := s.results.set pos
                  (some (.Stuck declaration
                    { offset := s.offset, length := SHORT_LENGTH }
                    { offset := s.offset + 1, length := stuck.length })),
                resolved := s.resolved + 1 }
          | none =>
            { s with
              results := s.results.set pos
                (some (peek_or_discrete found rest declaration
                  { offset := s.offset, length := SHORT_LENGTH })),
              resolved := s.resolved + 1 }

/-- The `'cursor` outer loop of src/parse.rs `get_locations`.  Stops when
every target slot has been resolved or the tokens are exhausted.  A long
whose alias is unregistered is skipped without advancing the cursor
(`continue 'cursor`); a non-target long advances the cursor past the
declaration, the name and one separator byte; a matched long advances the
cursor only past the declaration and records its location; a value-shaped
token advances the cursor past its bytes plus one separator byte. -/
def scanTokens (args : List ArgSpec) (targets : List String) :
    List Token → ScanState → ScanState
  | [], s => s
  | tok :: rest, s =>
    if targets.length ≤ s.resolved then s
    else
      match toLong tok with
      | some (long, accompany) =>
        match lookupAlias args (.Long long) with
        | none => scanTokens args targets rest s
        | some found =>
          match position found.id targets with
          | some pos =>
            let nameOff := s.offset + LONG_DECLARATION_LENGTH
            let declaration : ArgPart :=
              { offset := nameOff - LONG_DECLARATION_LENGTH,
                length := LONG_DECLARATION_LENGTH }
            let name : ArgPart := { offset := nameOff, length := long.length }
            let loc := match accompany with
              | some value => ArgLocation.new_complete declaration name value.length
              | none => peek_or_discrete found rest declaration name
            scanTokens args targets rest
              { offset := nameOff,
                results := s.results.set pos (some loc),
                resolved := s.resolved + 1 }
          | none =>
            scanTokens args targets rest
              { s with offset := s.offset + LONG_DECLARATION_LENGTH
                  + long.length + DELIMITER_LENGTH }
      | none =>
        match toShort tok with
        | some cluster =>
          scanTokens args targets rest
            (scanShorts args targets rest
              { offset := s.offset, length := SHORT_DECLARATION_LENGTH }
              cluster
              { s with offset := s.offset + SHORT_DECLARATION_LENGTH })
        | none =>
          scanTokens args targets rest
            { s with offset := s.offset + tok.length + DELIMITER_LENGTH }

/-- src/parse.rs `ArgLocator::get_locations`: one `Option ArgLocation`
slot per requested target. -/
def get_locations (args : List ArgSpec) (toks : List Token)
    (targets : List String) : List (Option ArgLocation) :=
  (scanTokens args targets toks
    { offset := 0,
      results := List.replicate targets.length none,
      resolved := 0 }).results

/-- src/parse.rs `ArgLocator::get_location`: the single-target call. -/
def get_location (args : List ArgSpec) (toks : List Token)
    (target : String) : Option ArgLocation :=
  (get_locations args toks [target]).getD 0 none

/-- Flag detection list used by src/lex.rs: `ValueParser::bool().possible_values()`. -/
def flag_possible_values : List String := ["true", "false"]

/-- The scenario schema of the doc example of src/parse.rs: flag
`discrete` (short -d, long --discrete), value-taking `stuck` (short -s),
value-taking `complete` (short -c, long --complete), value-taking
`optional` (short -o, long --optional). -/
def argDiscrete : ArgSpec :=
  { id := "discrete", long := some ("discrete".toList), longAliases := [],
    short := some 'd', shortAliases := [], numArgs := some (0, 0),
    allowHyphen := false, possibleValues := flag_possible_values }

def argStuck : ArgSpec :=
  { id := "stuck", long := none, longAliases := [],
    short := some 's', shortAliases := [], numArgs := none,
    allowHyphen := false, possibleValues := [] }

def argComplete : ArgSpec :=
  { id := "complete", long := some ("complete".toList), longAliases := [],
    short := some 'c', shortAliases := [], numArgs := none,
    allowHyphen := false, possibleValues := [] }

def argOptional : ArgSpec :=
  { id := "optional", long := some ("optional".toList), longAliases := [],
    short := some 'o', shortAliases := [], numArgs := none,
    allowHyphen := false, possibleValues := [] }

def schemaScenario : List ArgSpec :=
  [argDiscrete, argStuck, argComplete, argOptional]

def toksScenario : List Token := ["-dsValue".toList, "--complete=1".toList]

/-- The single-byte separator joining tokens in the flattened argv string. -/
def sepByte : Char := ' '

/-- The conceptual flattened argv string: tokens joined by single-byte
separators. -/
def flatten : List Token → List Char
  | [] => []
  | [t] => t
  | t :: ts => t ++ sepByte :: flatten ts

/-- Slice of the flattened argv string described by an `ArgPart`. -/
def sliceAt (s : List Char) (p : ArgPart) : List Char :=
  (s.drop p.offset).take p.length

def schemaTwoFlags : List ArgSpec :=
  [ { id := "a", long := some ("aa".toList), longAliases := [],
      short := none, shortAliases := [], numArgs := some (0, 0),
      allowHyphen := false, possibleValues := flag_possible_values },
    { id := "b", long := some ("bb".toList), longAliases := [],
      short := none, shortAliases := [], numArgs := some (0, 0),
      allowHyphen := false, possibleValues := flag_possible_values } ]

def toksTwoFlags : List Token := ["--aa".toList, "--bb".toList]

def argAaa : ArgSpec :=
  { id := "a", long := some ("aaa".toList), longAliases := [],
    short := none, shortAliases := [], numArgs := none,
    allowHyphen := false, possibleValues := [] }

def argBbb : ArgSpec :=
  { id := "b", long := some ("bbb".toList), longAliases := [],
    short := none, shortAliases := [], numArgs := none,
    allowHyphen := false, possibleValues := [] }

def schemaInline : List ArgSpec := [argAaa, argBbb]

def toksInline : List Token := ["--aaa=xx".toList, "--bbb".toList]

def argCc : ArgSpec :=
  { id := "c", long := some ("cc".toList), longAliases := [],
    short := none, shortAliases := [], numArgs := some (2, 2),
    allowHyphen := false, possibleValues := [] }

def schemaArityTwo : List ArgSpec := [argCc]

def toksArityTwo : List Token := ["--cc".toList, "aa".toList, "bb".toList]

def schemaAlpha : List ArgSpec :=
  [ { id := "alpha", long := some ("alpha".toList), longAliases := [],
      short := none, shortAliases := [], numArgs := some (0, 0),
      allowHyphen := false, possibleValues := flag_possible_values } ]

def argStick : ArgSpec :=
  { id := "should_stick", long := none, longAliases := [],
    short := some 's', shortAliases := [], numArgs := none,
    allowHyphen := false, possibleValues := [] }

def schemaStuckOnly : List ArgSpec := [argStick]

/-- The alias cache built by src/lex.rs `get_arg_aliases`.  Note the
source iterates `get_long` only inside `if let Some(all_aliases) =
arg.get_all_aliases()`, and `get_short` only inside the matching
`get_all_short_aliases` branch, so canonical names of arguments without
declared aliases are never registered. -/
def lexArgAliasesFrom (i : Nat) : List ArgSpec → List (ArgAlias × Nat)
  | [] => []
  | a :: rest =>
    (if a.longAliases.isEmpty then []
     else (a.longAliases ++ a.long.toList).map (fun s => (ArgAlias.Long s, i)))
      ++ (if a.shortAliases.isEmpty then []
          else (a.shortAliases ++ a.short.toList).map
            (fun c => (ArgAlias.Short c, i)))
      ++ lexArgAliasesFrom (i + 1) rest

def lexLookup (args : List ArgSpec) (al : ArgAlias) : Option ArgSpec :=
  ((lexArgAliasesFrom 0 args).find? (fun p => decide (p.1 = al))).bind
    (fun p => args.get? p.2)

/-- Outcome of the src/lex.rs scan: the `.expect` assertion failure on an
unregistered alias, or a normal return. -/
inductive LexOut where
  | panicked
  | ret (r : Option (Nat × Nat))
deriving DecidableEq, Repr

/-- The content-consuming loop of src/lex.rs `get_location` (lines
64-73): peek at the next token, and only when it is value-shaped add its
length plus one separator and consume it.  An option-shaped peek leaves
the cursor untouched, so the same peek repeats; fuel exhaustion returns
`none`. -/
def lexContentLoop : Nat → List Token → Nat → Option (Nat × List Token)
  | 0, _, _ => none
  | _ + 1, [], len => some (len, [])
  | fuel + 1, peek :: rest, len =>
    if (toLong peek).isNone && (toShort peek).isNone then
      lexContentLoop fuel rest (len + peek.length + 1)
    else
      lexContentLoop fuel (peek :: rest) len

/-- Result of the short-cluster loop of src/lex.rs: a panic, an early
return, or falling through to the next token with an updated offset. -/
inductive LexShortStep where
  | panicked
  | ret (r : Nat × Nat)
  | done (offset : Nat)
deriving DecidableEq, Repr

/-- The short-cluster loop of src/lex.rs `get_location` (lines 86-119).
Flag detection compares `get_possible_values` with the boolean value
parser's possible values.  The branch where the target's value is
present but `include_arg_name` is set (or the value is empty) falls out
of the loop without returning, losing the match. -/
def lexShorts (args : List ArgSpec) (target : String) (inclName : Bool) :
    List Char → Nat → LexShortStep
  | [], offset => .done offset
  | c :: cs, offset =>
    match lexLookup args (.Short c) with
    | none => .panicked
    | some found =>
      let offset := offset + 1
      if found.possibleValues = flag_possible_values then
        if found.id == target then .ret (offset, 1)
        else lexShorts args target inclName cs offset
      else
        let value : List Char := if cs.isEmpty then [] else cs
        let length := value.length
        if found.id != target then .done (offset + length + 1)
        else if !inclName && length != 0 then
          let offset := if value.head? = some '=' then offset + 1 else offset
          .ret (offset, length)
        else .done offset

/-- Tail of the long-target branch of src/lex.rs `get_location` (lines
75-85): the `include_arg_name` and equal-sign offset adjustment applied
to the content loop's result; `none` propagates fuel exhaustion. -/
def lexAfterContent (inclName : Bool) (offset longLen : Nat) (accSome : Bool) :
    Option (Nat × List Token) → Option LexOut
  | none => none
  | some (length, _) =>
    if !inclName && length != 0 then
      some (.ret (some (offset + longLen - (if accSome then 1 else 0), length)))
    else
      some (.ret (some (offset, length + longLen)))

/-- src/lex.rs `ArgLocator::get_location`: the outer token loop.  The
long branch panics on an unregistered alias, advances only past the name
plus one separator for non-targets, and for a target runs
`lexContentLoop` before returning.  `none` marks fuel exhaustion of the
content loop, i.e. divergence of the source. -/
def lexGetLocation (args : List ArgSpec) (target : String) (inclName : Bool)
    (fuel : Nat) : List Token → Nat → Option LexOut
  | [], _ => some (.ret none)
  | tok :: rest, offset =>
    match toLong tok with
    | some (long, accompany) =>
      match lexLookup args (.Long long) with
      | none => some .panicked
      | some found =>
        if found.id != target then
          lexGetLocation args target inclName fuel rest
            (offset + long.length + 1)
        else
          let len0 := match accompany with
            | some value => value.length
            | none => 0
          lexAfterContent inclName offset long.length accompany.isSome
            (lexContentLoop fuel rest len0)
    | none =>
      match toShort tok with
      | some cluster =>
        match lexShorts args target inclName cluster offset with
        | .panicked => some .panicked
        | .ret r => some (.ret (some r))
        | .done offset2 => lexGetLocation args target inclName fuel rest offset2
      | none =>
        lexGetLocation args target inclName fuel rest (offset + tok.length + 1)

/-- Schema for the divergence input: value-taking `complete` with long
alias `comp`, so the lex.rs builder registers its canonical long. -/
def schemaLexComplete : List ArgSpec :=
  [ { id := "complete", long := some ("complete".toList),
      longAliases := ["comp".toList],
      short := none, shortAliases := [], numArgs := none,
      allowHyphen := false, possibleValues := [] } ]

def toksLexDiverge : List Token := ["--complete".toList, "--x".toList]

/-- The text removed by `splitFirstEq` on the value side, as it appears
in the token. -/
def eqTail : Option (List Char) → List Char
  | some v => '=' :: v
  | none => []

/-- The bytes a list of tokens contributes to the flattened argv string
when more tokens follow: each token followed by one separator byte. -/
def preJoin : List Token → List Char
  | [] => []
  | t :: ts => t ++ sepByte :: preJoin ts

/-- The location a matched long alias records: a `Complete` built from
the inline value when one followed the `=`, otherwise whatever
`peek_or_discrete` decides. -/
def longMatchLoc (a : ArgSpec) (rest : List Token) (o : Nat)
    (nm : List Char) : Option (List Char) → ArgLocation
  | some v => ArgLocation.new_complete ⟨o, 2⟩ ⟨o + 2, nm.length⟩ v.length
  | none => peek_or_discrete a rest ⟨o, 2⟩ ⟨o + 2, nm.length⟩

/-- A short character resolves to the target via the alias index. -/
def shortResolvesTo (args : List ArgSpec) (target : String) (c : Char) : Bool :=
  match lookupAlias args (.Short c) with
  | some a => target == a.id
  | none => false

/-- A token can resolve to the target: its long name resolves to the
target, or it is short-shaped and some cluster character resolves to the
target.  When this is false for every token the target parameter never
occurs in the token sequence. -/
def mentionsTarget (args : List ArgSpec) (target : String) (tok : Token) : Bool :=
  (match toLong tok with
   | some (nm, _) =>
     match lookupAlias args (.Long nm) with
     | some a => target == a.id
     | none => false
   | none => false)
  || (match toShort tok with
      | some cluster => cluster.any (shortResolvesTo args target)
      | none => false)

/-- A `Complete` location is internally contiguous: the delimiter starts
where the name ends, has length one, and the content starts right after
the delimiter.  Other shapes satisfy the check trivially. -/
def completeContiguous : ArgLocation → Bool
  | .Complete _ n d c =>
    (d.offset == n.offset + n.length) && (d.length == 1)
      && (c.offset == d.offset + d.length)
  | _ => true

def slotContiguous : Option ArgLocation → Bool
  | some l => completeContiguous l
  | none => true

/-- The declared aliases of one parameter, following the spec's words:
the canonical long name plus all declared long aliases as Long entries,
and the canonical short plus all declared short aliases as Short
entries. -/
def declaredAliases (a : ArgSpec) : List ArgAlias :=
  (a.long.toList ++ a.longAliases).map ArgAlias.Long
    ++ (a.short.toList ++ a.shortAliases).map ArgAlias.Short

/-- src/parse.rs `get_arg_by_alias` as produced by `from_command_factory`,
including its `NonEmpty::from_vec(aliases).expect("Arg has no aliases or
real names")` step: when the schema registers no alias at all, the lazy
cache build of parse.rs line 162 panics on the closure's first
invocation; otherwise the lookup is `lookupAlias`. -/
def lookupAliasE (args : List ArgSpec) (al : ArgAlias) :
    Except String (Option ArgSpec) :=
  if (buildAliasPairs args).isEmpty then
    .error "Arg has no aliases or real names"
  else
    .ok (lookupAlias args al)

/-- The `'shorts` loop of src/parse.rs `get_locations` with the panic of
the lookup closure made explicit: branch for branch the same as
`scanShorts`, but every alias lookup goes through `lookupAliasE` and a
panic aborts the scan. -/
def scanShortsE (args : List ArgSpec) (targets : List String)
    (rest : List Token) (declaration : ArgPart) :
    List Char → ScanState → Except String ScanState
  | [], s => .ok s
  | c :: cs, s =>
    match lookupAliasE args (.Short c) with
    | .error e => .error e
    | .ok none => scanShortsE args targets rest declaration cs s
    | .ok (some found) =>
      if is_arg_discrete found then
        match position found.id targets with
        | none =>
          scanShortsE args targets rest declaration cs
            { s with offset := s.offset + SHORT_LENGTH }
        | some pos =>
          scanShortsE args targets rest declaration cs
            { s with
              results := s.results.set pos
                (some (.Discrete declaration { offset := s.offset, length := 1 })),
              resolved := s.resolved + 1 }
      else
        let remain : Option (List Char) := if cs.isEmpty then none else some cs
        match position found.id targets with
        | none =>
          .ok { s with offset := s.offset + SHORT_LENGTH
              + (remain.getD []).length + DELIMITER_LENGTH }
        | some pos =>
          match remain with
          | some stuck =>
            if stuck.head? = some '=' then
              .ok { s with
                results := s.results.set pos
                  (some (ArgLocation.new_complete declaration
                    { offset := s.offset, length := SHORT_LENGTH }
                    (stuck.length - 1))),
                resolved := s.resolved + 1 }
            else
              .ok { s with
                results := s.results.set pos
                  (some (.Stuck declaration
                    { offset := s.offset, length := SHORT_LENGTH }
                    { offset := s.offset + 1, length := stuck.length })),
                resolved := s.resolved + 1 }
          | none =>
            .ok { s with
              results := s.results.set pos
                (some (peek_or_discrete found rest declaration
                  { offset := s.offset, length := SHORT_LENGTH })),
              resolved := s.resolved + 1 }

/-- The `'cursor` loop of src/parse.rs `get_locations` with the panic of
the lookup closure made explicit: branch for branch the same as
`scanTokens`, but every alias lookup goes through `lookupAliasE`.  A
token that triggers no lookup can never panic, matching the lazy
one-time build of the cache. -/
def scanTokensE (args : List ArgSpec) (targets : List String) :
    List Token → ScanState → Except String ScanState
  | [], s => .ok s
  | tok :: rest, s =>
    if targets.length ≤ s.resolved then .ok s
    else
      match toLong tok with
      | some (long, accompany) =>
        match lookupAliasE args (.Long long) with
        | .error e => .error e
        | .ok none => scanTokensE args targets rest s
        | .ok (some found) =>
          match position found.id targets with
          | some pos =>
            let nameOff := s.offset + LONG_DECLARATION_LENGTH
            let declaration : ArgPart :=
              { offset := nameOff - LONG_DECLARATION_LENGTH,
                length := LONG_DECLARATION_LENGTH }
            let name : ArgPart := { offset := nameOff, length := long.length }
            let loc := match accompany with
              | some value => ArgLocation.new_complete declaration name value.length
              | none => peek_or_discrete found rest declaration name
            scanTokensE args targets rest
              { offset := nameOff,
                results := s.results.set pos (some loc),
                resolved := s.resolved + 1 }
          | none =>
            scanTokensE args targets rest
              { s with offset := s.offset + LONG_DECLARATION_LENGTH
                  + long.length + DELIMITER_LENGTH }
      | none =>
        match toShort tok with
        | some cluster =>
          match scanShortsE args targets rest
              { offset := s.offset, length := SHORT_DECLARATION_LENGTH }
              cluster
              { s with offset := s.offset + SHORT_DECLARATION_LENGTH } with
          | .error e => .error e
          | .ok s2 => scanTokensE args targets rest s2
        | none =>
          scanTokensE args targets rest
            { s with offset := s.offset + tok.length + DELIMITER_LENGTH }

/-- src/parse.rs `get_locations` with the lookup closure's panic made
explicit: `.error` is the `.expect` panic of the lazy alias-cache build,
`.ok` the normal per-target result vector. -/
def get_locations_checked (args : List ArgSpec) (toks : List Token)
    (targets : List String) : Except String (List (Option ArgLocation)) :=
  (scanTokensE args targets toks
    { offset := 0,
      results := List.replicate targets.length none,
      resolved := 0 }).map (fun s => s.results)

/-- src/parse.rs `get_location` with the lookup closure's panic made
explicit. -/
def get_location_checked (args : List ArgSpec) (toks : List Token)
    (target : String) : Except String (Option ArgLocation) :=
  (get_locations_checked args toks [target]).map (fun l => l.getD 0 none)

/-- A positional-style parameter: an id but no long and no short, so it
contributes no alias to the index. -/
def argPositional : ArgSpec :=
  { id := "input", long := none, longAliases := [],
    short := none, shortAliases := [], numArgs := none,
    allowHyphen := false, possibleValues := [] }

/-- A schema whose alias index is empty: `from_command_factory`'s cache
build panics on the first alias lookup. -/
def schemaNoAliases : List ArgSpec := [argPositional]

theorem splitFirstEq_recover : ∀ (l f : List Char) (v : Option (List Char)),
    splitFirstEq l = (f, v) → l = f ++ eqTail v := by
  intro l
  induction l with
  | nil =>
    intro f v h
    simp [splitFirstEq] at h
    simp [h.1.symm, h.2.symm, eqTail]
  | cons c cs ih =>
    intro f v h
    by_cases hc : c = '='
    · simp [splitFirstEq, hc] at h
      simp [hc, h.1.symm, h.2.symm, eqTail]
    · simp [splitFirstEq, hc] at h
      have := ih (splitFirstEq cs).1 (splitFirstEq cs).2 rfl
      simp [h.1.symm, h.2.symm]
      exact this

theorem toLong_eq_some {tok : Token} {nm : List Char} {acc : Option (List Char)}
    (h : toLong tok = some (nm, acc)) :
    tok = '-' :: '-' :: (nm ++ eqTail acc) := by
  match tok with
  | [] => simp [toLong] at h
  | [c1] => simp [toLong] at h
  | c1 :: c2 :: rest =>
    by_cases hh : c1 = '-' ∧ c2 = '-'
    · rw [toLong, if_pos hh] at h
      by_cases he : rest.isEmpty
      · rw [if_pos he] at h; cases h
      · rw [if_neg he] at h
        have h2 : splitFirstEq rest = (nm, acc) := by
          cases h3 : splitFirstEq rest
          rw [h3] at h
          cases h; rfl
        rw [hh.1, hh.2, splitFirstEq_recover rest nm acc h2]
    · rw [toLong, if_neg hh] at h; cases h

theorem toShort_eq_some {tok : Token} {cluster : List Char}
    (h : toShort tok = some cluster) :
    tok = '-' :: cluster := by
  match tok with
  | [] => simp [toShort] at h
  | c1 :: rest =>
    by_cases hc : c1 = '-'
    · rw [toShort, if_pos hc] at h
      by_cases he : rest.isEmpty
      · rw [if_pos he] at h; cases h
      · rw [if_neg he] at h
        by_cases hd : rest.head? = some '-'
        · rw [if_pos hd] at h; cases h
        · rw [if_neg hd] at h
          cases h; rw [hc]
    · rw [toShort, if_neg hc] at h; cases h

theorem isValueTok_iff {t : Token} :
    isValueTok t = true ↔ toLong t = none ∧ toShort t = none := by
  simp [isValueTok, Option.isNone_iff_eq_none]

theorem preJoin_length : ∀ ts : List Token,
    (preJoin ts).length = (ts.map (fun t => t.length + 1)).sum := by
  intro ts
  induction ts with
  | nil => rfl
  | cons t ts ih => simp [preJoin, ih]; omega

theorem flatten_cons_ne_nil {t : Token} {ts : List Token} (h : ts ≠ []) :
    flatten (t :: ts) = t ++ sepByte :: flatten ts := by
  cases ts with
  | nil => exact absurd rfl h
  | cons u us => rfl

theorem flatten_append_ne_nil : ∀ (vs ts : List Token), ts ≠ [] →
    flatten (vs ++ ts) = preJoin vs ++ flatten ts := by
  intro vs
  induction vs with
  | nil => intro ts _; rfl
  | cons v vs ih =>
    intro ts h
    have hne : vs ++ ts ≠ [] := by
      cases ts with
      | nil => exact absurd rfl h
      | cons u us => simp
    rw [List.cons_append, flatten_cons_ne_nil hne, ih ts h, preJoin]
    simp

theorem sliceAt_shift (xs ys : List Char) (o n : Nat) :
    sliceAt (xs ++ ys) ⟨xs.length + o, n⟩ = sliceAt ys ⟨o, n⟩ := by
  simp [sliceAt, List.drop_append]

/-- Once every target slot is resolved the scan stops immediately. -/
theorem scanTokens_stop (args : List ArgSpec) (targets : List String) :
    ∀ (ts : List Token) (s : ScanState), targets.length ≤ s.resolved →
      scanTokens args targets ts s = s := by
  intro ts s h
  cases ts with
  | nil => rfl
  | cons t ts => simp [scanTokens, if_pos h]

/-- Value-shaped tokens only advance the byte cursor: each contributes
its length plus one separator byte. -/
theorem scanTokens_values (args : List ArgSpec) (targets : List String) :
    ∀ (vs ts : List Token) (s : ScanState),
      (∀ v ∈ vs, isValueTok v = true) → s.resolved < targets.length →
      scanTokens args targets (vs ++ ts) s
        = scanTokens args targets ts
            { s with offset := s.offset + (preJoin vs).length } := by
  intro vs
  induction vs with
  | nil => intro ts s _ _; simp [preJoin]
  | cons v vs ih =>
    intro ts s hv hr
    obtain ⟨hlong, hshort⟩ := isValueTok_iff.mp (hv v (by simp))
    have hvs : ∀ x ∈ vs, isValueTok x = true := fun x hx => hv x (by simp [hx])
    rw [List.cons_append]
    rw [show scanTokens args targets (v :: (vs ++ ts)) s
        = scanTokens args targets (vs ++ ts)
            { s with offset := s.offset + v.length + DELIMITER_LENGTH } by
      simp only [scanTokens, if_neg (by omega : ¬ targets.length ≤ s.resolved),
        hlong, hshort]]
    rw [ih ts { s with offset := s.offset + v.length + DELIMITER_LENGTH }
      hvs hr]
    have harith : s.offset + v.length + DELIMITER_LENGTH + (preJoin vs).length
        = s.offset + (preJoin (v :: vs)).length := by
      simp [preJoin, DELIMITER_LENGTH]; omega
    simp [harith]

/-- One scan step on a single-target match via a long alias: the location
is recorded in slot zero, the cursor advances only past the declaration,
and the target count reaches the limit. -/
theorem scanTokens_long_match (args : List ArgSpec) (target : String)
    (tok : Token) (rest : List Token) (nm : List Char) (acc : Option (List Char))
    (a : ArgSpec) (o : Nat) (res : List (Option ArgLocation))
    (ht : toLong tok = some (nm, acc))
    (hl : lookupAlias args (.Long nm) = some a)
    (hid : (target == a.id) = true) :
    scanTokens args [target] (tok :: rest) ⟨o, res, 0⟩
      = ⟨o + 2, res.set 0 (some (longMatchLoc a rest o nm acc)), 1⟩ := by
  have hpos : position a.id [target] = some 0 := by simp [position, hid]
  rw [show scanTokens args [target] (tok :: rest) ⟨o, res, 0⟩
      = scanTokens args [target] rest
          ⟨o + 2, res.set 0 (some (longMatchLoc a rest o nm acc)), 1⟩ by
    cases acc with
    | some v =>
      simp only [scanTokens, ht, hl, hpos,
        if_neg (by simp : ¬ ([target].length ≤ (0:Nat))),
        LONG_DECLARATION_LENGTH, Nat.add_sub_cancel, longMatchLoc]
    | none =>
      simp only [scanTokens, ht, hl, hpos,
        if_neg (by simp : ¬ ([target].length ≤ (0:Nat))),
        LONG_DECLARATION_LENGTH, Nat.add_sub_cancel, longMatchLoc]]
  exact scanTokens_stop args [target] rest _ (by simp)

theorem slice_decl (w : List Char) :
    sliceAt ('-' :: '-' :: w) ⟨0, 2⟩ = ['-', '-'] := rfl

theorem slice_name (nm w : List Char) :
    sliceAt ('-' :: '-' :: (nm ++ w)) ⟨2, nm.length⟩ = nm := by
  show (nm ++ w).take nm.length = nm
  exact List.take_left nm w

theorem slice_after_name (nm w : List Char) (k n : Nat) :
    sliceAt ('-' :: '-' :: (nm ++ w)) ⟨nm.length + k + 2, n⟩ = sliceAt w ⟨k, n⟩ := by
  show (((nm ++ w).drop (nm.length + k)).take n) = _
  rw [List.drop_append]
  rfl

theorem take_flatten_head (p : Token) (ps : List Token) :
    (flatten (p :: ps)).take p.length = p := by
  cases ps with
  | nil => exact List.take_length p
  | cons q qs =>
    rw [flatten_cons_ne_nil (by simp)]
    exact List.take_left p _

/-- C1 (amended): offset contract for a single-target match via a long
alias, when every token before the match is value-shaped. -/
theorem get_location_offset_contract_long
    (args : List ArgSpec) (target : String) (vs : List Token) (tok : Token)
    (rest : List Token) (nm : List Char) (acc : Option (List Char)) (a : ArgSpec)
    (hvs : ∀ v ∈ vs, isValueTok v = true)
    (ht : toLong tok = some (nm, acc))
    (hl : lookupAlias args (.Long nm) = some a)
    (hid : (target == a.id) = true) :
    get_location args (vs ++ tok :: rest) target
      = some (longMatchLoc a rest (preJoin vs).length nm acc)
    ∧ sliceAt (flatten (vs ++ tok :: rest)) ⟨(preJoin vs).length, 2⟩ = ['-', '-']
    ∧ sliceAt (flatten (vs ++ tok :: rest))
        ⟨(preJoin vs).length + 2, nm.length⟩ = nm
    ∧ (∀ v, acc = some v →
        sliceAt (flatten (vs ++ tok :: rest))
          ⟨(preJoin vs).length + 2 + nm.length, 1⟩ = ['=']
        ∧ sliceAt (flatten (vs ++ tok :: rest))
          ⟨(preJoin vs).length + 2 + nm.length + 1, v.length⟩ = v)
    ∧ (acc = none → ∀ p ps, rest = p :: ps →
        sliceAt (flatten (vs ++ tok :: rest))
          ⟨(preJoin vs).length + 2 + nm.length, 1⟩ = [sepByte]
        ∧ sliceAt (flatten (vs ++ tok :: rest))
          ⟨(preJoin vs).length + 2 + nm.length + 1, p.length⟩ = p) := by
  have htok : tok = '-' :: '-' :: (nm ++ eqTail acc) := toLong_eq_some ht
  have hflat : flatten (vs ++ tok :: rest)
      = preJoin vs ++ flatten (tok :: rest) :=
    flatten_append_ne_nil vs (tok :: rest) (by simp)
  have hXnil : flatten [tok] = '-' :: '-' :: (nm ++ eqTail acc) := htok
  have hXcons : ∀ p ps, flatten (tok :: p :: ps)
      = '-' :: '-' :: (nm ++ (eqTail acc ++ sepByte :: flatten (p :: ps))) := by
    intro p ps
    rw [flatten_cons_ne_nil (by simp), htok]
    simp
  refine ⟨?_, ?_, ?_, ?_, ?_⟩
  · show ((scanTokens args [target] (vs ++ tok :: rest)
      ⟨0, List.replicate 1 none, 0⟩).results).getD 0 none = _
    rw [show (List.replicate 1 (none : Option ArgLocation)) = [none] from rfl]
    rw [scanTokens_values args [target] vs (tok :: rest) ⟨0, [none], 0⟩ hvs
      (by simp)]
    rw [scanTokens_long_match args target tok rest nm acc a
      (0 + (preJoin vs).length) [none] ht hl hid]
    simp
  · rw [hflat]
    refine ((sliceAt_shift (preJoin vs) _ 0 2).trans ?_)
    cases rest with
    | nil => rw [hXnil]; exact slice_decl _
    | cons p ps => rw [hXcons p ps]; exact slice_decl _
  · rw [hflat]
    refine ((sliceAt_shift (preJoin vs) _ 2 nm.length).trans ?_)
    cases rest with
    | nil => rw [hXnil]; exact slice_name nm _
    | cons p ps => rw [hXcons p ps]; exact slice_name nm _
  · rintro v rfl
    have harith : (preJoin vs).length + 2 + nm.length
        = (preJoin vs).length + (nm.length + 0 + 2) := by omega
    have harith2 : (preJoin vs).length + 2 + nm.length + 1
        = (preJoin vs).length + (nm.length + 1 + 2) := by omega
    constructor
    · rw [hflat, harith]
      refine ((sliceAt_shift (preJoin vs) _ (nm.length + 0 + 2) 1).trans ?_)
      cases rest with
      | nil =>
        rw [hXnil, slice_after_name nm _ 0 1]
        rfl
      | cons p ps =>
        rw [hXcons p ps, slice_after_name nm _ 0 1]
        rfl
    · rw [hflat, harith2]
      refine ((sliceAt_shift (preJoin vs) _ (nm.length + 1 + 2) v.length).trans ?_)
      cases rest with
      | nil =>
        rw [hXnil, slice_after_name nm _ 1 v.length]
        show v.take v.length = v
        exact List.take_length v
      | cons p ps =>
        rw [hXcons p ps, slice_after_name nm _ 1 v.length]
        show ((v ++ sepByte :: flatten (p :: ps)).take v.length) = v
        exact List.take_left v _
  · rintro rfl p ps rfl
    have harith : (preJoin vs).length + 2 + nm.length
        = (preJoin vs).length + (nm.length + 0 + 2) := by omega
    have harith2 : (preJoin vs).length + 2 + nm.length + 1
        = (preJoin vs).length + (nm.length + 1 + 2) := by omega
    constructor
    · rw [hflat, harith]
      refine ((sliceAt_shift (preJoin vs) _ (nm.length + 0 + 2) 1).trans ?_)
      rw [hXcons p ps, slice_after_name nm _ 0 1]
      rfl
    · rw [hflat, harith2]
      refine ((sliceAt_shift (preJoin vs) _ (nm.length + 1 + 2) p.length).trans ?_)
      rw [hXcons p ps, slice_after_name nm _ 1 p.length]
      show (flatten (p :: ps)).take p.length = p
      exact take_flatten_head p ps

theorem scanShorts_no_target (args : List ArgSpec) (target : String)
    (rest : List Token) (d : ArgPart) :
    ∀ (cs : List Char) (o : Nat),
      (∀ c ∈ cs, shortResolvesTo args target c = false) →
      ∃ o2, scanShorts args [target] rest d cs ⟨o, [none], 0⟩
        = ⟨o2, [none], 0⟩ := by
  intro cs
  induction cs with
  | nil => intro o _; exact ⟨o, rfl⟩
  | cons c cs ih =>
    intro o h
    have hc := h c (by simp)
    have hcs : ∀ x ∈ cs, shortResolvesTo args target x = false :=
      fun x hx => h x (by simp [hx])
    cases hl : lookupAlias args (.Short c) with
    | none =>
      obtain ⟨o2, h2⟩ := ih o hcs
      refine ⟨o2, ?_⟩
      simp only [scanShorts, hl]
      exact h2
    | some found =>
      have hfid : (target == found.id) = false := by
        simpa [shortResolvesTo, hl] using hc
      have hpos : position found.id [target] = none := by
        simp [position, hfid]
      cases hd : is_arg_discrete found with
      | true =>
        obtain ⟨o2, h2⟩ := ih (o + SHORT_LENGTH) hcs
        refine ⟨o2, ?_⟩
        simp only [scanShorts, hl, hd, hpos, if_pos]
        exact h2
      | false =>
        refine ⟨o + SHORT_LENGTH
          + ((if cs.isEmpty then none else some cs).getD []).length
          + DELIMITER_LENGTH, ?_⟩
        simp only [scanShorts, hl, hd, hpos, Bool.false_eq_true, if_false]

theorem scanTokens_no_target (args : List ArgSpec) (target : String) :
    ∀ (toks : List Token) (o : Nat),
      (∀ tok ∈ toks, mentionsTarget args target tok = false) →
      ∃ o2, scanTokens args [target] toks ⟨o, [none], 0⟩
        = ⟨o2, [none], 0⟩ := by
  intro toks
  induction toks with
  | nil => intro o _; exact ⟨o, rfl⟩
  | cons tok rest ih =>
    intro o h
    have htok := h tok (by simp)
    have hrest : ∀ x ∈ rest, mentionsTarget args target x = false :=
      fun x hx => h x (by simp [hx])
    have hstep : ¬ ([target].length ≤ (⟨o, [none], 0⟩ : ScanState).resolved) := by
      simp
    cases hlng : toLong tok with
    | some pair =>
      obtain ⟨nm, acc⟩ := pair
      cases hl : lookupAlias args (.Long nm) with
      | none =>
        obtain ⟨o2, h2⟩ := ih o hrest
        refine ⟨o2, ?_⟩
        simp only [scanTokens, hlng, hl, if_neg hstep]
        exact h2
      | some found =>
        have hfid : (target == found.id) = false := by
          have := htok
          simp [mentionsTarget, hlng, hl] at this
          exact beq_eq_false_iff_ne.mpr this.1
        have hpos : position found.id [target] = none := by
          simp [position, hfid]
        obtain ⟨o2, h2⟩ :=
          ih (o + LONG_DECLARATION_LENGTH + nm.length + DELIMITER_LENGTH) hrest
        refine ⟨o2, ?_⟩
        simp only [scanTokens, hlng, hl, hpos, if_neg hstep]
        exact h2
    | none =>
      cases hsh : toShort tok with
      | some cluster =>
        have hcl : ∀ c ∈ cluster, shortResolvesTo args target c = false := by
          have := htok
          simp only [mentionsTarget, hlng, hsh, Bool.or_eq_false_iff] at this
          exact fun c hc => Bool.eq_false_iff.mpr ((List.any_eq_false).mp this.2 c hc)
        obtain ⟨o2, h2⟩ := scanShorts_no_target args target rest
          ⟨o, SHORT_DECLARATION_LENGTH⟩ cluster (o + SHORT_DECLARATION_LENGTH) hcl
        obtain ⟨o3, h3⟩ := ih o2 hrest
        refine ⟨o3, ?_⟩
        simp only [scanTokens, hlng, hsh, if_neg hstep]
        rw [h2]
        exact h3
      | none =>
        obtain ⟨o2, h2⟩ := ih (o + tok.length + DELIMITER_LENGTH) hrest
        refine ⟨o2, ?_⟩
        simp only [scanTokens, hlng, hsh, if_neg hstep]
        exact h2

theorem slot_some (l : ArgLocation) :
    slotContiguous (some l) = completeContiguous l := rfl

theorem new_complete_contiguous (d n : ArgPart) (len : Nat) :
    completeContiguous (ArgLocation.new_complete d n len) = true := by
  simp [ArgLocation.new_complete, completeContiguous, DELIMITER_LENGTH]

theorem peek_or_discrete_contiguous (a : ArgSpec) (rest : List Token)
    (d n : ArgPart) :
    completeContiguous (peek_or_discrete a rest d n) = true := by
  cases rest with
  | nil => rfl
  | cons p ps =>
    by_cases hc : (a.allowHyphen || ((toLong p).isNone && (toShort p).isNone))
      = true
    · simp [peek_or_discrete, hc, new_complete_contiguous]
    · simp [peek_or_discrete, hc, completeContiguous]

theorem set_all_contiguous (rs : List (Option ArgLocation)) (pos : Nat)
    (x : Option ArgLocation) (h : rs.all slotContiguous = true)
    (hx : slotContiguous x = true) :
    (rs.set pos x).all slotContiguous = true := by
  rw [List.all_eq_true] at h ⊢
  intro y hy
  rcases List.mem_or_eq_of_mem_set hy with hmem | rfl
  · exact h y hmem
  · exact hx

theorem scanShorts_contiguous (args : List ArgSpec) (targets : List String)
    (rest : List Token) (d : ArgPart) :
    ∀ (cs : List Char) (s : ScanState), s.results.all slotContiguous = true →
      ((scanShorts args targets rest d cs s).results).all slotContiguous
        = true := by
  intro cs
  induction cs with
  | nil => intro s hs; exact hs
  | cons c cs ih =>
    intro s hs
    cases hl : lookupAlias args (.Short c) with
    | none => simp only [scanShorts, hl]; exact ih s hs
    | some found =>
      cases hd : is_arg_discrete found with
      | true =>
        cases hpos : position found.id targets with
        | none => simp only [scanShorts, hl, hd, hpos, if_pos]; exact ih _ hs
        | some pos =>
          simp only [scanShorts, hl, hd, hpos, if_pos]
          apply ih
          exact set_all_contiguous _ _ _ hs rfl
      | false =>
        cases hpos : position found.id targets with
        | none => simp only [scanShorts, hl, hd, hpos]; exact hs
        | some pos =>
          by_cases hemp : cs.isEmpty
          · simp only [scanShorts, hl, hd, hpos, hemp, Bool.false_eq_true,
              if_false, if_true]
            exact set_all_contiguous _ _ _ hs
              (peek_or_discrete_contiguous found rest d _)
          · by_cases heq : cs.head? = some '='
            · simp only [scanShorts, hl, hd, hpos, hemp, Bool.false_eq_true,
                if_false, if_pos heq]
              exact set_all_contiguous _ _ _ hs (new_complete_contiguous d _ _)
            · simp only [scanShorts, hl, hd, hpos, hemp, Bool.false_eq_true,
                if_false, if_neg heq]
              exact set_all_contiguous _ _ _ hs rfl

theorem scanTokens_contiguous (args : List ArgSpec) (targets : List String) :
    ∀ (toks : List Token) (s : ScanState),
      s.results.all slotContiguous = true →
      ((scanTokens args targets toks s).results).all slotContiguous = true := by
  intro toks
  induction toks with
  | nil => intro s hs; exact hs
  | cons tok rest ih =>
    intro s hs
    by_cases hstop : targets.length ≤ s.resolved
    · simp only [scanTokens, if_pos hstop]; exact hs
    · cases hlng : toLong tok with
      | some pair =>
        obtain ⟨nm, acc⟩ := pair
        cases hl : lookupAlias args (.Long nm) with
        | none => simp only [scanTokens, hlng, hl, if_neg hstop]; exact ih s hs
        | some found =>
          cases hpos : position found.id targets with
          | none =>
            simp only [scanTokens, hlng, hl, hpos, if_neg hstop]
            exact ih _ hs
          | some pos =>
            cases acc with
            | some v =>
              simp only [scanTokens, hlng, hl, hpos, if_neg hstop]
              apply ih
              refine set_all_contiguous _ _ _ hs ?_
              rw [slot_some]
              exact new_complete_contiguous _ _ _
            | none =>
              simp only [scanTokens, hlng, hl, hpos, if_neg hstop]
              apply ih
              refine set_all_contiguous _ _ _ hs ?_
              rw [slot_some]
              exact peek_or_discrete_contiguous found rest _ _
      | none =>
        cases hsh : toShort tok with
        | some cluster =>
          simp only [scanTokens, hlng, hsh, if_neg hstop]
          exact ih _ (scanShorts_contiguous args targets rest _ cluster _ hs)
        | none =>
          simp only [scanTokens, hlng, hsh, if_neg hstop]
          exact ih _ hs

theorem replicate_all_contiguous (n : Nat) :
    (List.replicate n (none : Option ArgLocation)).all slotContiguous = true := by
  rw [List.all_eq_true]
  intro y hy
  rw [List.eq_of_mem_replicate hy]
  rfl

/-- When the peeked token is option-shaped, the src/lex.rs content loop
makes no progress: it exhausts any amount of fuel without terminating. -/
theorem lexContentLoop_stuck (p : Token)
    (hp : ((toLong p).isNone && (toShort p).isNone) = false) :
    ∀ (fuel : Nat) (rest : List Token) (len : Nat),
      lexContentLoop fuel (p :: rest) len = none := by
  intro fuel
  induction fuel with
  | zero => intro rest len; rfl
  | succ f ih =>
    intro rest len
    simp only [lexContentLoop, hp, Bool.false_eq_true, if_false]
    exact ih rest len

theorem lexGetLocation_diverge_unfold (fuel : Nat) :
    lexGetLocation schemaLexComplete "complete" false fuel toksLexDiverge 0
      = lexAfterContent false 0 ("complete".toList).length false
          (lexContentLoop fuel ["--x".toList] 0) := rfl

theorem declaredAliases_eq_argAliasList : declaredAliases = argAliasList := rfl

theorem mem_keys_buildAliasPairsFrom (al : ArgAlias) :
    ∀ (args : List ArgSpec) (i : Nat),
      al ∈ (buildAliasPairsFrom i args).map Prod.fst
        ↔ ∃ a ∈ args, al ∈ argAliasList a := by
  intro args
  induction args with
  | nil => intro i; simp [buildAliasPairsFrom]
  | cons b rest ih =>
    intro i
    simp only [buildAliasPairsFrom, List.map_append, List.map_map,
      List.mem_append, List.mem_map, Function.comp]
    constructor
    · rintro (⟨x, hx, rfl⟩ | h)
      · exact ⟨b, by simp, hx⟩
      · obtain ⟨a, ha, hal⟩ := ((ih (i + 1)).mp (by
          simpa [List.mem_map] using h))
        exact ⟨a, by simp [ha], hal⟩
    · rintro ⟨a, ha, hal⟩
      rcases List.mem_cons.mp ha with rfl | ha2
      · exact Or.inl ⟨al, hal, rfl⟩
      · exact Or.inr (by
          have := (ih (i + 1)).mpr ⟨a, ha2, hal⟩
          simpa [List.mem_map] using this)

theorem find_in_block (al : ArgAlias) (i : Nat) :
    ∀ (L : List ArgAlias), al ∈ L →
      List.find? (fun p => decide (p.1 = al)) (L.map (fun x => (x, i)))
        = some (al, i) := by
  intro L
  induction L with
  | nil => intro h; cases h
  | cons x xs ih =>
    intro h
    by_cases hx : x = al
    · subst hx
      simp [List.find?]
    · have hmem : al ∈ xs := by
        rcases List.mem_cons.mp h with rfl | h2
        · exact absurd rfl hx
        · exact h2
      simp only [List.map_cons, List.find?]
      rw [show (decide ((x, i).1 = al)) = false by simp [hx]]
      exact ih hmem

theorem find_skip_block (al : ArgAlias) (i : Nat) (L : List ArgAlias)
    (h : al ∉ L) :
    List.find? (fun p => decide (p.1 = al)) (L.map (fun x => (x, i)))
      = none := by
  apply List.find?_eq_none.mpr
  rintro ⟨x, j⟩ hx
  simp only [List.mem_map] at hx
  obtain ⟨y, hy, heq⟩ := hx
  cases heq
  simp only [decide_eq_true_eq]
  rintro rfl
  exact h hy

theorem keys_buildAliasPairsFrom (args : List ArgSpec) (i : Nat) :
    ∀ (b : ArgSpec),
      (buildAliasPairsFrom i (b :: args)).map Prod.fst
        = argAliasList b ++ (buildAliasPairsFrom (i + 1) args).map Prod.fst := by
  intro b
  simp only [buildAliasPairsFrom, List.map_append, List.map_map]
  congr 1
  simp [Function.comp_def]

theorem find_buildAliasPairsFrom (al : ArgAlias) :
    ∀ (args : List ArgSpec) (i k : Nat) (a : ArgSpec),
      ((buildAliasPairsFrom i args).map Prod.fst).Nodup →
      args.get? k = some a → al ∈ argAliasList a →
      List.find? (fun p => decide (p.1 = al)) (buildAliasPairsFrom i args)
        = some (al, i + k) := by
  intro args
  induction args with
  | nil => intro i k a _ hk; cases k <;> cases hk
  | cons b rest ih =>
    intro i k a hnd hk hal
    rw [keys_buildAliasPairsFrom rest i b] at hnd
    cases k with
    | zero =>
      have hab : b = a := by simpa using hk
      subst hab
      simp only [buildAliasPairsFrom]
      rw [List.find?_append, find_in_block al i (argAliasList b) hal]
      rfl
    | succ k =>
      have hk2 : rest.get? k = some a := by simpa using hk
      have hmem : al ∈ (buildAliasPairsFrom (i + 1) rest).map Prod.fst :=
        (mem_keys_buildAliasPairsFrom al rest (i + 1)).mpr ⟨a, by
          exact List.get?_mem hk2, hal⟩
      have hnotb : al ∉ argAliasList b := by
        intro hb
        exact ((List.nodup_append.mp hnd).2.2) hb hmem
      simp only [buildAliasPairsFrom]
      rw [List.find?_append, find_skip_block al i (argAliasList b) hnotb]
      have := ih (i + 1) k a (List.nodup_append.mp hnd).2.1 hk2 hal
      rw [show i + 1 + k = i + (k + 1) by omega] at this
      simpa using this

/-- On a schema registering at least one alias, every lookup through the
closure succeeds, so the checked lookup is the pure one. -/
theorem lookupAliasE_ok (args : List ArgSpec) (al : ArgAlias)
    (hne : (buildAliasPairs args).isEmpty = false) :
    lookupAliasE args al = .ok (lookupAlias args al) := by
  simp [lookupAliasE, hne]

/-- On a schema registering at least one alias, the checked cluster loop
never panics and computes the pure cluster loop. -/
theorem scanShortsE_ok (args : List ArgSpec) (targets : List String)
    (rest : List Token) (d : ArgPart)
    (hne : (buildAliasPairs args).isEmpty = false) :
    ∀ (cs : List Char) (s : ScanState),
      scanShortsE args targets rest d cs s
        = .ok (scanShorts args targets rest d cs s) := by
  intro cs
  induction cs with
  | nil => intro s; rfl
  | cons c cs ih =>
    intro s
    simp only [scanShortsE, scanShorts, lookupAliasE_ok args (.Short c) hne]
    cases hl : lookupAlias args (.Short c) with
    | none => exact ih s
    | some found =>
      cases hd : is_arg_discrete found with
      | true =>
        cases hpos : position found.id targets with
        | none => simp only [hd, hpos, if_pos]; exact ih _
        | some pos => simp only [hd, hpos, if_pos]; exact ih _
      | false =>
        cases hpos : position found.id targets with
        | none => simp only [hd, hpos, Bool.false_eq_true, if_false]
        | some pos =>
          by_cases hemp : cs.isEmpty
          · simp only [hd, hpos, hemp, Bool.false_eq_true, if_false, if_true]
          · by_cases heq : cs.head? = some '='
            · simp only [hd, hpos, hemp, Bool.false_eq_true, if_false,
                if_pos heq]
            · simp only [hd, hpos, hemp, Bool.false_eq_true, if_false,
                if_neg heq]

/-- On a schema registering at least one alias, the checked scan never
panics and computes the pure scan. -/
theorem scanTokensE_ok (args : List ArgSpec) (targets : List String)
    (hne : (buildAliasPairs args).isEmpty = false) :
    ∀ (toks : List Token) (s : ScanState),
      scanTokensE args targets toks s = .ok (scanTokens args targets toks s) := by
  intro toks
  induction toks with
  | nil => intro s; rfl
  | cons tok rest ih =>
    intro s
    by_cases hstop : targets.length ≤ s.resolved
    · simp only [scanTokensE, scanTokens, if_pos hstop]
    · cases hlng : toLong tok with
      | some pair =>
        obtain ⟨nm, acc⟩ := pair
        cases hl : lookupAlias args (.Long nm) with
        | none =>
          simp only [scanTokensE, scanTokens, if_neg hstop, hlng,
            lookupAliasE_ok args (.Long nm) hne, hl]
          exact ih s
        | some found =>
          cases hpos : position found.id targets with
          | some pos =>
            simp only [scanTokensE, scanTokens, if_neg hstop, hlng,
              lookupAliasE_ok args (.Long nm) hne, hl, hpos]
            exact ih _
          | none =>
            simp only [scanTokensE, scanTokens, if_neg hstop, hlng,
              lookupAliasE_ok args (.Long nm) hne, hl, hpos]
            exact ih _
      | none =>
        cases hsh : toShort tok with
        | some cluster =>
          simp only [scanTokensE, scanTokens, if_neg hstop, hlng, hsh,
            scanShortsE_ok args targets rest _ hne]
          exact ih _
        | none =>
          simp only [scanTokensE, scanTokens, if_neg hstop, hlng, hsh]
          exact ih _

/-- C1 counterexample: with both long flags requested, the second
location's declaration part is recorded at offset 2, but the flattened
argv string there reads the first flag's name, not the declaration
hyphens — a matched long advances the cursor only past its declaration,
so every later span drifts. -/
theorem offset_contract_counterexample :
    get_locations schemaTwoFlags toksTwoFlags ["a", "b"]
      = [some (.Discrete ⟨0, 2⟩ ⟨2, 2⟩), some (.Discrete ⟨2, 2⟩ ⟨4, 2⟩)]
    ∧ sliceAt (flatten toksTwoFlags) ⟨2, 2⟩ ≠ ['-', '-'] := by
  refine ⟨by decide, by decide⟩

/-- C1 witness: the amended offset contract at the scenario schema with
one value-shaped token before the matching long. -/
theorem get_location_offset_contract_long_witness :
    get_location schemaScenario (["prog".toList] ++ "--complete=1".toList :: [])
        "complete"
      = some (longMatchLoc argComplete [] (preJoin ["prog".toList]).length
          ("complete".toList) (some ("1".toList))) :=
  (get_location_offset_contract_long schemaScenario "complete" ["prog".toList]
    ("--complete=1".toList) [] ("complete".toList) (some ("1".toList))
    argComplete (by decide) (by decide) (by decide) (by decide)).1

/-- C2: the locate operation of src/lex.rs does not terminate on a
matched long target followed by an option-shaped token — the content
loop peeks the same token forever.  However much fuel the embedded loop
is given, it exhausts it. -/
theorem lexGetLocation_diverges (fuel : Nat) :
    lexGetLocation schemaLexComplete "complete" false fuel toksLexDiverge 0
      = none := by
  rw [lexGetLocation_diverge_unfold fuel,
    lexContentLoop_stuck ("--x".toList) (by decide) fuel [] 0]
  rfl

/-- C3 counterexample: on a schema whose alias index is non-empty, a
long token with an unregistered alias and a short cluster with an
unregistered character are both silently skipped — the scan continues
with its state unchanged and the call returns the normal empty result,
not an assertion failure. -/
theorem unresolved_alias_normal_result :
    get_locations schemaAlpha ["--unknown".toList] ["alpha"] = [none]
    ∧ scanTokens schemaAlpha ["alpha"] ["--unknown".toList] ⟨0, [none], 0⟩
        = ⟨0, [none], 0⟩
    ∧ get_locations schemaAlpha ["-z".toList] ["alpha"] = [none]
    ∧ scanShorts schemaAlpha ["alpha"] [] ⟨0, 1⟩ ['z'] ⟨1, [none], 0⟩
        = ⟨1, [none], 0⟩ := by
  refine ⟨by decide, by decide, by decide, by decide⟩

/-- C3 (amended): on a schema that registers at least one alias, a token
whose long or short alias is not registered is silently skipped —
`get_arg_by_alias` returns `None`, the outer loop continues with its
state (including the byte cursor) unchanged for a long, the cluster loop
skips just that character for a short, and the checked locator returns
the normal result with no panic.  (Only on a schema registering no alias
at all is a lookup fatal, via the cache build's `.expect`.) -/
theorem unresolved_alias_skipped (args : List ArgSpec) (targets : List String)
    (tok : Token) (rest : List Token) (nm : List Char) (acc : Option (List Char))
    (c : Char) (cs : List Char) (d : ArgPart) (s : ScanState)
    (hne : (buildAliasPairs args).isEmpty = false) :
    (toLong tok = some (nm, acc) → lookupAlias args (.Long nm) = none →
      s.resolved < targets.length →
      scanTokens args targets (tok :: rest) s = scanTokens args targets rest s)
    ∧ (lookupAlias args (.Short c) = none →
      scanShorts args targets rest d (c :: cs) s
        = scanShorts args targets rest d cs s)
    ∧ (∀ toks : List Token, get_locations_checked args toks targets
        = .ok (get_locations args toks targets)) := by
  refine ⟨?_, ?_, ?_⟩
  · intro ht hl hr
    simp only [scanTokens, ht, hl,
      if_neg (by omega : ¬ targets.length ≤ s.resolved)]
  · intro hl
    simp only [scanShorts, hl]
  · intro toks
    unfold get_locations_checked
    rw [scanTokensE_ok args targets hne]
    rfl

theorem unresolved_alias_skipped_witness :
    scanTokens schemaAlpha ["alpha"] ("--unknown".toList :: []) ⟨0, [none], 0⟩
      = scanTokens schemaAlpha ["alpha"] [] ⟨0, [none], 0⟩
    ∧ scanShorts schemaAlpha ["alpha"] [] ⟨0, 1⟩ ('z' :: []) ⟨1, [none], 0⟩
      = scanShorts schemaAlpha ["alpha"] [] ⟨0, 1⟩ [] ⟨1, [none], 0⟩
    ∧ get_locations_checked schemaAlpha ["--unknown".toList] ["alpha"]
      = .ok (get_locations schemaAlpha ["--unknown".toList] ["alpha"]) :=
  ⟨(unresolved_alias_skipped schemaAlpha ["alpha"] ("--unknown".toList) []
      ("unknown".toList) none 'z' [] ⟨0, 1⟩ ⟨0, [none], 0⟩ (by decide)).1
      (by decide) (by decide) (by decide),
   (unresolved_alias_skipped schemaAlpha ["alpha"] ("--unknown".toList) []
      ("unknown".toList) none 'z' [] ⟨0, 1⟩ ⟨1, [none], 0⟩ (by decide)).2.1
      (by decide),
   (unresolved_alias_skipped schemaAlpha ["alpha"] ("--unknown".toList) []
      ("unknown".toList) none 'z' [] ⟨0, 1⟩ ⟨0, [none], 0⟩ (by decide)).2.2
      ["--unknown".toList]⟩

/-- C4 counterexample: on a schema declaring no alias at all (a single
positional-style parameter) and tokens in which the requested target
never occurs, the locate operation does not return zero entries: its
first alias lookup panics in the lazy cache build at
`NonEmpty::from_vec(aliases).expect("Arg has no aliases or real
names")`, an abnormal termination. -/
theorem absent_target_panic_counterexample :
    (∀ tok ∈ [("--x".toList : Token)],
      mentionsTarget schemaNoAliases "input" tok = false)
    ∧ get_location_checked schemaNoAliases ["--x".toList] "input"
        = .error "Arg has no aliases or real names" := by
  refine ⟨by decide, rfl⟩

/-- C4 (amended): provided the schema registers at least one alias (so
the lazy cache build cannot panic), a target parameter that never occurs
in the given tokens — no token's long name resolves to it and no
short-shaped token contains a character resolving to it — yields the
normal result `.ok none` from the checked `get_location`: zero entries
for that target, no error and no abnormal termination. -/
theorem get_location_absent_target (args : List ArgSpec) (target : String)
    (toks : List Token)
    (hne : (buildAliasPairs args).isEmpty = false)
    (h : ∀ tok ∈ toks, mentionsTarget args target tok = false) :
    get_location_checked args toks target = .ok none := by
  obtain ⟨o2, h2⟩ := scanTokens_no_target args target toks 0 h
  unfold get_location_checked get_locations_checked
  rw [scanTokensE_ok args [target] hne]
  rw [show List.replicate ([target] : List String).length
    (none : Option ArgLocation) = [none] from rfl, h2]
  rfl

theorem get_location_absent_target_witness :
    get_location_checked schemaScenario toksScenario "optional" = .ok none :=
  get_location_absent_target schemaScenario "optional" toksScenario
    (by decide) (by decide)

/-- C5: the doc-example scenario.  On the schema with flag `discrete`,
value-taking `stuck`, `complete` and `optional` and the tokens
`-dsValue`, `--complete=1`, locating each target yields exactly the
spans the spec lists, and `optional` yields no entry. -/
theorem scenario_locations :
    get_location schemaScenario toksScenario "discrete"
      = some (.Discrete ⟨0, 1⟩ ⟨1, 1⟩)
    ∧ get_location schemaScenario toksScenario "stuck"
      = some (.Stuck ⟨0, 1⟩ ⟨2, 1⟩ ⟨3, 5⟩)
    ∧ get_location schemaScenario toksScenario "complete"
      = some (.Complete ⟨9, 2⟩ ⟨11, 8⟩ ⟨19, 1⟩ ⟨20, 1⟩)
    ∧ get_location schemaScenario toksScenario "optional" = none := by
  refine ⟨by decide, by decide, by decide, by decide⟩

/-- C6 counterexample: the non-target token `--aaa=xx` has nine bytes
counting its separator, but the scan advances the cursor only past
`--aaa` plus the separator, so the later match for `b` is recorded at
declaration offset 6 — where the flattened string reads `xx`, not
`--`. -/
theorem skip_inline_value_counterexample :
    get_locations schemaInline toksInline ["b"]
      = [some (.Discrete ⟨6, 2⟩ ⟨8, 3⟩)]
    ∧ ("--aaa=xx".toList).length + 1 = 9
    ∧ sliceAt (flatten toksInline) ⟨6, 2⟩ ≠ ['-', '-'] := by
  refine ⟨by decide, by decide, by decide⟩

/-- C6 (amended): a long token resolving to a non-target advances the
cursor by declaration plus name plus one separator byte; this equals the
whole token plus separator exactly when the token carries no inline
`=value`, whose bytes are never skipped. -/
theorem nontarget_long_advance (args : List ArgSpec) (targets : List String)
    (tok : Token) (rest : List Token) (nm : List Char) (acc : Option (List Char))
    (a : ArgSpec) (s : ScanState)
    (ht : toLong tok = some (nm, acc))
    (hl : lookupAlias args (.Long nm) = some a)
    (hp : position a.id targets = none)
    (hr : s.resolved < targets.length) :
    scanTokens args targets (tok :: rest) s
      = scanTokens args targets rest
          { s with offset := s.offset + LONG_DECLARATION_LENGTH + nm.length
              + DELIMITER_LENGTH }
    ∧ (acc = none → tok.length = LONG_DECLARATION_LENGTH + nm.length) := by
  constructor
  · simp only [scanTokens, ht, hl, hp,
      if_neg (by omega : ¬ targets.length ≤ s.resolved)]
  · rintro rfl
    rw [toLong_eq_some ht]
    simp [eqTail, LONG_DECLARATION_LENGTH]
    omega

theorem nontarget_long_advance_witness :
    scanTokens schemaInline ["b"] ("--aaa".toList :: []) ⟨0, [none], 0⟩
      = scanTokens schemaInline ["b"] []
          ⟨0 + LONG_DECLARATION_LENGTH + ("aaa".toList).length
            + DELIMITER_LENGTH, [none], 0⟩ :=
  (nontarget_long_advance schemaInline ["b"] ("--aaa".toList) []
    ("aaa".toList) none argAaa ⟨0, [none], 0⟩
    (by decide) (by decide) (by decide) (by decide)).1

/-- C7 counterexample: `c` declares arity two, yet on `--cc aa bb` the
recorded content covers only the peeked first following token (length
two); the arity rule of the claim would require content `aa bb` of
length five. -/
theorem arity_ignored_counterexample :
    get_locations schemaArityTwo toksArityTwo ["c"]
      = [some (.Complete ⟨0, 2⟩ ⟨2, 2⟩ ⟨4, 1⟩ ⟨5, 2⟩)]
    ∧ argCc.numArgs = some (2, 2)
    ∧ (ArgPart.mk 5 2) ≠ ⟨5, ("aa bb".toList).length⟩ := by
  refine ⟨by decide, by decide, by decide⟩

/-- C7 (amended): the following-token consumption rule ignores the
declared arity and examines exactly one following token.  For any state
of the scan and any target set: a matched target long without an inline
value records `peek_or_discrete` of the single next token and the outer
loop continues with the token stream unchanged — the peeked token is not
consumed; a matched value-taking short that ends its cluster records the
same `peek_or_discrete`; and `peek_or_discrete` yields `Complete` with
content length equal to that one token's length when it is value-shaped
(or hyphen values are allowed), otherwise `Discrete` — the parameter's
`numArgs` arity never enters. -/
theorem matched_target_peeks_one (args : List ArgSpec) (targets : List String)
    (tok : Token) (rest : List Token) (nm : List Char) (c : Char)
    (a b : ArgSpec) (s : ScanState) (pos pos2 : Nat) (d : ArgPart)
    (ht : toLong tok = some (nm, none))
    (hl : lookupAlias args (.Long nm) = some a)
    (hpos : position a.id targets = some pos)
    (hr : s.resolved < targets.length)
    (hlc : lookupAlias args (.Short c) = some b)
    (hdc : is_arg_discrete b = false)
    (hpos2 : position b.id targets = some pos2) :
    scanTokens args targets (tok :: rest) s
      = scanTokens args targets rest
          { offset := s.offset + LONG_DECLARATION_LENGTH,
            results := s.results.set pos (some (peek_or_discrete a rest
              ⟨s.offset, LONG_DECLARATION_LENGTH⟩
              ⟨s.offset + LONG_DECLARATION_LENGTH, nm.length⟩)),
            resolved := s.resolved + 1 }
    ∧ scanShorts args targets rest d (c :: []) s
      = { s with
          results := s.results.set pos2 (some (peek_or_discrete b rest d
            ⟨s.offset, SHORT_LENGTH⟩)),
          resolved := s.resolved + 1 }
    ∧ (∀ (arg : ArgSpec) (decl name : ArgPart),
        peek_or_discrete arg rest decl name
          = match rest with
            | peek :: _ =>
              if arg.allowHyphen || isValueTok peek then
                ArgLocation.new_complete decl name peek.length
              else .Discrete decl name
            | [] => .Discrete decl name) := by
  refine ⟨?_, ?_, ?_⟩
  · simp only [scanTokens, ht, hl, hpos,
      if_neg (by omega : ¬ targets.length ≤ s.resolved), Nat.add_sub_cancel]
  · simp only [scanShorts, hlc, hdc, Bool.false_eq_true, if_false, hpos2]
    rfl
  · intro arg decl name
    cases rest with
    | nil => rfl
    | cons p ps => rfl

theorem matched_target_peeks_one_witness :
    scanTokens schemaScenario ["complete", "stuck"]
        ("--complete".toList :: ["aa".toList]) ⟨0, [none, none], 0⟩
      = scanTokens schemaScenario ["complete", "stuck"] ["aa".toList]
          { offset := 0 + LONG_DECLARATION_LENGTH,
            results := [none, none].set 0 (some (peek_or_discrete argComplete
              ["aa".toList] ⟨0, LONG_DECLARATION_LENGTH⟩
              ⟨0 + LONG_DECLARATION_LENGTH, ("complete".toList).length⟩)),
            resolved := 0 + 1 }
    ∧ scanShorts schemaScenario ["complete", "stuck"] ["aa".toList] ⟨0, 1⟩
        ('s' :: []) ⟨0, [none, none], 0⟩
      = { offset := 0,
          results := [none, none].set 1 (some (peek_or_discrete argStuck
            ["aa".toList] ⟨0, 1⟩ ⟨0, SHORT_LENGTH⟩)),
          resolved := 0 + 1 }
    ∧ (∀ (arg : ArgSpec) (decl name : ArgPart),
        peek_or_discrete arg ["aa".toList] decl name
          = if arg.allowHyphen || isValueTok ("aa".toList) then
              ArgLocation.new_complete decl name (("aa".toList).length)
            else .Discrete decl name) :=
  matched_target_peeks_one schemaScenario ["complete", "stuck"]
    ("--complete".toList) ["aa".toList] ("complete".toList) 's'
    argComplete argStuck ⟨0, [none, none], 0⟩ 0 1 ⟨0, 1⟩
    (by decide) (by decide) (by decide) (by decide) (by decide) (by decide)
    (by decide)

/-- C8: a value-taking short whose cluster remainder begins with `=`
yields a `Complete` location — one-byte delimiter, content equal to the
remainder minus the `=` — and not a `Stuck` location, for every value
text. -/
theorem short_equals_is_complete (v : List Char) :
    get_location schemaStuckOnly (('-' :: 's' :: '=' :: v) :: []) "should_stick"
      = some (.Complete ⟨0, 1⟩ ⟨1, 1⟩ ⟨2, 1⟩ ⟨3, v.length⟩) := rfl

/-- C9: the registered aliases are exactly the declared ones — for every
argument the canonical long plus declared long aliases as Long entries
and the canonical short plus declared short aliases as Short entries —
and, when the schema's aliases are pairwise distinct, every alias of an
argument resolves to that argument's index, so all aliases of one
parameter share one instance.  The index is a pure function of the
schema, so it is fixed once built. -/
theorem alias_index_exact (args : List ArgSpec)
    (hnd : ((buildAliasPairs args).map Prod.fst).Nodup) :
    (∀ al : ArgAlias, al ∈ (buildAliasPairs args).map Prod.fst
        ↔ ∃ a ∈ args, al ∈ declaredAliases a)
    ∧ (∀ (k : Nat) (a : ArgSpec), args.get? k = some a →
        ∀ al ∈ declaredAliases a, lookupAliasIdx args al = some k) := by
  constructor
  · intro al
    rw [declaredAliases_eq_argAliasList]
    exact mem_keys_buildAliasPairsFrom al args 0
  · intro k a hk al hal
    rw [declaredAliases_eq_argAliasList] at hal
    have hfind := find_buildAliasPairsFrom al args 0 k a hnd hk hal
    unfold lookupAliasIdx buildAliasPairs
    rw [hfind]
    simp

theorem alias_index_exact_witness :
    (∀ al : ArgAlias, al ∈ (buildAliasPairs schemaScenario).map Prod.fst
        ↔ ∃ a ∈ schemaScenario, al ∈ declaredAliases a)
    ∧ (∀ (k : Nat) (a : ArgSpec), schemaScenario.get? k = some a →
        ∀ al ∈ declaredAliases a,
          lookupAliasIdx schemaScenario al = some k) :=
  alias_index_exact schemaScenario (by decide)

/-- C10: every `Complete` location in the output of `get_locations` is
internally contiguous — its delimiter starts exactly at the end of the
name and has length one, and its content starts exactly at the end of
the delimiter — for every schema, token sequence and target set. -/
theorem locations_complete_contiguous (args : List ArgSpec)
    (toks : List Token) (targets : List String) :
    (get_locations args toks targets).all slotContiguous = true :=
  scanTokens_contiguous args targets toks _ (replicate_all_contiguous _)
